import Mathlib

/-!
Verification development for a small recursive ray tracer written in Rust
(`src/vec.rs`, `src/ray.rs`, `src/hittable.rs`, `src/sphere.rs`,
`src/material.rs`, `src/camera.rs`, `src/main.rs`).

The Rust `f32` arithmetic is modelled over the exact reals `ℝ`; `f32::sqrt`
becomes `Real.sqrt`, `f32::min` becomes `min`.  The ambient thread-local
random generator is modelled by passing each random draw as an explicit
argument (a point of the unit sphere / unit disk, a unit vector, or a scalar
in `[0,1)`), mirroring the note in the spec that the random source is the only
ambient state.  Mutation of `&mut` out-parameters is modelled by returning
the written values: a Rust function `fn f(.., rec: &mut R) -> bool` becomes
a Lean function returning `Bool × R`.
-/

namespace RayTracer

/-- `Vec3` from `src/vec.rs`: a 3-component vector of `f32` (modelled as `ℝ`),
used both as a point and as a color. -/
structure Vec3 where
  x : ℝ
  y : ℝ
  z : ℝ

/-- `pub type Point3 = Vec3;` -/
abbrev Point3 := Vec3

/-- `pub type Color = Vec3;` -/
abbrev Color := Vec3

/-- `impl ops::Add for Vec3` (componentwise). -/
noncomputable instance : Add Vec3 :=
  ⟨fun a b => ⟨a.x + b.x, a.y + b.y, a.z + b.z⟩⟩

/-- `impl ops::Sub for Vec3` (componentwise). -/
noncomputable instance : Sub Vec3 :=
  ⟨fun a b => ⟨a.x - b.x, a.y - b.y, a.z - b.z⟩⟩

/-- `impl ops::Neg for Vec3` (componentwise). -/
noncomputable instance : Neg Vec3 :=
  ⟨fun a => ⟨-a.x, -a.y, -a.z⟩⟩

/-- `impl ops::Mul for Vec3` (componentwise / Hadamard product). -/
noncomputable instance : Mul Vec3 :=
  ⟨fun a b => ⟨a.x * b.x, a.y * b.y, a.z * b.z⟩⟩

/-- `impl ops::Mul<f32> for Vec3` (scale a vector by a scalar on the right). -/
noncomputable instance : HMul Vec3 ℝ Vec3 :=
  ⟨fun v k => ⟨v.x * k, v.y * k, v.z * k⟩⟩

/-- `impl ops::Mul<Vec3> for f32` (`self * rhs` is defined as `rhs * self`). -/
noncomputable instance : HMul ℝ Vec3 Vec3 :=
  ⟨fun k v => ⟨v.x * k, v.y * k, v.z * k⟩⟩

/-- `impl ops::Div<f32> for Vec3` (divide each component by a scalar). -/
noncomputable instance : HDiv Vec3 ℝ Vec3 :=
  ⟨fun v k => ⟨v.x / k, v.y / k, v.z / k⟩⟩

@[simp] theorem add_x (a b : Vec3) : (a + b).x = a.x + b.x := rfl
@[simp] theorem add_y (a b : Vec3) : (a + b).y = a.y + b.y := rfl
@[simp] theorem add_z (a b : Vec3) : (a + b).z = a.z + b.z := rfl
@[simp] theorem sub_x (a b : Vec3) : (a - b).x = a.x - b.x := rfl
@[simp] theorem sub_y (a b : Vec3) : (a - b).y = a.y - b.y := rfl
@[simp] theorem sub_z (a b : Vec3) : (a - b).z = a.z - b.z := rfl
@[simp] theorem neg_x (a : Vec3) : (-a).x = -a.x := rfl
@[simp] theorem neg_y (a : Vec3) : (-a).y = -a.y := rfl
@[simp] theorem neg_z (a : Vec3) : (-a).z = -a.z := rfl
@[simp] theorem mul_x (a b : Vec3) : (a * b).x = a.x * b.x := rfl
@[simp] theorem mul_y (a b : Vec3) : (a * b).y = a.y * b.y := rfl
@[simp] theorem mul_z (a b : Vec3) : (a * b).z = a.z * b.z := rfl
@[simp] theorem smul_right_x (v : Vec3) (k : ℝ) : (v * k).x = v.x * k := rfl
@[simp] theorem smul_right_y (v : Vec3) (k : ℝ) : (v * k).y = v.y * k := rfl
@[simp] theorem smul_right_z (v : Vec3) (k : ℝ) : (v * k).z = v.z * k := rfl
@[simp] theorem smul_left_x (k : ℝ) (v : Vec3) : (k * v).x = v.x * k := rfl
@[simp] theorem smul_left_y (k : ℝ) (v : Vec3) : (k * v).y = v.y * k := rfl
@[simp] theorem smul_left_z (k : ℝ) (v : Vec3) : (k * v).z = v.z * k := rfl
@[simp] theorem div_x (v : Vec3) (k : ℝ) : (v / k).x = v.x / k := rfl
@[simp] theorem div_y (v : Vec3) (k : ℝ) : (v / k).y = v.y / k := rfl
@[simp] theorem div_z (v : Vec3) (k : ℝ) : (v / k).z = v.z / k := rfl

/-- Two vectors with equal components are equal. -/
theorem Vec3.eq_of_comps {a b : Vec3}
    (hx : a.x = b.x) (hy : a.y = b.y) (hz : a.z = b.z) : a = b := by
  cases a; cases b; simp_all

/-- `Vec3::length_sqrd`. -/
noncomputable def Vec3.length_sqrd (v : Vec3) : ℝ := v.x ^ 2 + v.y ^ 2 + v.z ^ 2

/-- `Vec3::length`. -/
noncomputable def Vec3.length (v : Vec3) : ℝ := Real.sqrt v.length_sqrd

/-- `dot` from `src/vec.rs`. -/
noncomputable def dot (v1 v2 : Vec3) : ℝ := v1.x * v2.x + v1.y * v2.y + v1.z * v2.z

/-- `cross` from `src/vec.rs`. -/
noncomputable def cross (v1 v2 : Vec3) : Vec3 :=
  ⟨v1.y * v2.z - v1.z * v2.y, v1.z * v2.x - v1.x * v2.z, v1.x * v2.y - v1.y * v2.x⟩

/-- `unit_vector` from `src/vec.rs`: `v / v.length()`. -/
noncomputable def unit_vector (v : Vec3) : Vec3 := v / v.length

/-- `reflect` from `src/vec.rs`: `*v - 2.0 * dot(v, n) * *n`. -/
noncomputable def reflect (v n : Vec3) : Vec3 := v - (2 * dot v n) * n

/-- `refract` from `src/vec.rs` (the law of Snell split into parallel and
perpendicular components). -/
noncomputable def refract (uv n : Vec3) (etai_over_etat : ℝ) : Vec3 :=
  let cos_theta := dot (-uv) n
  let r_out_parallel := etai_over_etat * (uv + cos_theta * n)
  let r_out_perp := (-(Real.sqrt (1 - r_out_parallel.length_sqrd))) * n
  r_out_parallel + r_out_perp

/-- `Ray` from `src/ray.rs`. -/
structure Ray where
  orig : Point3
  dir : Vec3

/-- `Ray::at`: `origin + direction * t`. -/
noncomputable def Ray.at (r : Ray) (t : ℝ) : Point3 := r.orig + r.dir * t

/-- The material descriptor.  `src/material.rs` implements the three kinds as
structs behind a `Material` trait object, while `src/main.rs` stores a
closed-variant `Material` value in each sphere; the closed variant is used
here, with the `scatter` of each variant given by the corresponding struct impl in
`src/material.rs`. -/
inductive Material where
  | lambertian : Color → Material
  | metal : Color → ℝ → Material
  | dielectric : ℝ → Material

/-- `HitRecord` from `src/hittable.rs`. -/
structure HitRecord where
  p : Point3
  normal : Vec3
  t : ℝ
  front_face : Bool
  mat : Material

/-- `HitRecord::default()`: zeroed fields (the concrete `mat` of the default
record is never observable in the hit logic; any fixed material works). -/
noncomputable def hitRecordDefault : HitRecord :=
  ⟨⟨0, 0, 0⟩, ⟨0, 0, 0⟩, 0, false, Material.lambertian ⟨0, 0, 0⟩⟩

/-- `HitRecord::set_face_normal` from `src/hittable.rs`: the record with
`front_face` set to `dot(r.dir, outward_normal) < 0` and `normal` set to the
outward normal when front-facing, else its negation. -/
noncomputable def HitRecord.set_face_normal
    (rec : HitRecord) (r : Ray) (outward_normal : Vec3) : HitRecord :=
  let front_face := if dot r.dir outward_normal < 0 then true else false
  { rec with
    front_face := front_face
    normal := if front_face then outward_normal else -outward_normal }

/-- `Sphere` from `src/sphere.rs`. -/
structure Sphere where
  center : Point3
  radius : ℝ
  mat : Material

/-- Local `oc = r.orig - self.center` of `Sphere::hit`. -/
noncomputable def Sphere.oc (s : Sphere) (r : Ray) : Vec3 := r.orig - s.center

/-- Local `a = r.dir.length_sqrd()` of `Sphere::hit` (it depends only on the ray). -/
noncomputable def hitA (r : Ray) : ℝ := r.dir.length_sqrd

/-- Local `half_b = dot(&oc, &r.dir)` of `Sphere::hit`. -/
noncomputable def Sphere.half_b (s : Sphere) (r : Ray) : ℝ := dot (s.oc r) r.dir

/-- Local `c = oc.length_sqrd() - radius²` of `Sphere::hit`. -/
noncomputable def Sphere.cq (s : Sphere) (r : Ray) : ℝ :=
  (s.oc r).length_sqrd - s.radius ^ 2

/-- Local `discriminant = half_b² - a * c` of `Sphere::hit`. -/
noncomputable def Sphere.discriminant (s : Sphere) (r : Ray) : ℝ :=
  s.half_b r ^ 2 - hitA r * s.cq r

/-- First quadratic root tried by `Sphere::hit`: `(-half_b - √discriminant)/a`. -/
noncomputable def Sphere.root1 (s : Sphere) (r : Ray) : ℝ :=
  (-s.half_b r - Real.sqrt (s.discriminant r)) / hitA r

/-- Second quadratic root tried by `Sphere::hit`: `(-half_b + √discriminant)/a`. -/
noncomputable def Sphere.root2 (s : Sphere) (r : Ray) : ℝ :=
  (-s.half_b r + Real.sqrt (s.discriminant r)) / hitA r

/-- The record built by `Sphere::hit` on acceptance of root `t`: hit point
`r.at(t)`, outward normal `(p - center)/radius`, then `set_face_normal`. -/
noncomputable def Sphere.mkHit (s : Sphere) (r : Ray) (t : ℝ) : HitRecord :=
  let p := r.at t
  let outward_normal := (p - s.center) / s.radius
  HitRecord.set_face_normal ⟨p, ⟨0, 0, 0⟩, t, false, s.mat⟩ r outward_normal

/-- `Sphere::hit` from `src/sphere.rs` (`Option<HitRecord>` form): if the
discriminant is positive, try the root `(-half_b - √d)/a` against the open
window, then `(-half_b + √d)/a`; otherwise no hit. -/
noncomputable def Sphere.hit (s : Sphere) (r : Ray) (t_min t_max : ℝ) :
    Option HitRecord :=
  if 0 < s.discriminant r then
    if s.root1 r < t_max ∧ t_min < s.root1 r then some (s.mkHit r (s.root1 r))
    else if s.root2 r < t_max ∧ t_min < s.root2 r then some (s.mkHit r (s.root2 r))
    else none
  else none

/-- The loop body of `HittableList::hit` from `src/hittable.rs`, as explicit
recursion over the member list.  `Sphere` is the only `Hittable` primitive in
the repository, so the `Vec<Box<dyn Hittable>>` is modelled as `List Sphere`.
State carried through the loop: `hit_anything`, `closest_so_far`, `temp_rec`,
and the caller out-parameter `rec`.  A member that hits writes `temp_rec`,
narrows `closest_so_far` to `temp_rec.t` and copies `temp_rec` into `rec`. -/
noncomputable def listHitGo (r : Ray) (t_min : ℝ) :
    List Sphere → Bool → ℝ → HitRecord → HitRecord → Bool × HitRecord
  | [], hit_anything, _, _, rec => (hit_anything, rec)
  | obj :: rest, hit_anything, closest_so_far, temp_rec, rec =>
    match obj.hit r t_min closest_so_far with
    | some rec2 => listHitGo r t_min rest true rec2.t rec2 rec2
    | none => listHitGo r t_min rest hit_anything closest_so_far temp_rec rec

/-- `HittableList::hit` from `src/hittable.rs`: returns the `hit_anything`
flag and the final value of the `&mut rec` out-parameter. -/
noncomputable def HittableList.hit (objects : List Sphere) (r : Ray)
    (t_min t_max : ℝ) (rec : HitRecord) : Bool × HitRecord :=
  listHitGo r t_min objects false t_max hitRecordDefault rec

/-- `Lambertian` from `src/material.rs`. -/
structure Lambertian where
  albedo : Color

/-- `Lambertian::scatter`: result is `(return value, attenuation, scattered)`;
`rnd_unit` is the `random_unit_vector()` draw. -/
noncomputable def Lambertian.scatter (l : Lambertian) (r_in : Ray)
    (rec : HitRecord) (rnd_unit : Vec3) : Bool × Color × Ray :=
  let scatter_dir := rec.normal + rnd_unit
  (true, l.albedo, ⟨rec.p, scatter_dir⟩)

/-- `Metal` from `src/material.rs`. -/
structure Metal where
  albedo : Color
  roughness : ℝ

/-- `Metal::new`: stores `f32::min(r, 1.0)` as the roughness. -/
noncomputable def Metal.new (albedo : Color) (r : ℝ) : Metal :=
  ⟨albedo, min r 1⟩

/-- `Metal::scatter`: result is `(return value, attenuation, scattered)`;
`rnd_sphere` is the `random_in_unit_sphere()` draw.  The returned flag is
`dot(scattered.dir, rec.normal) > 0`. -/
noncomputable def Metal.scatter (m : Metal) (r_in : Ray) (rec : HitRecord)
    (rnd_sphere : Vec3) : Bool × Color × Ray :=
  let u := unit_vector r_in.dir
  let reflected := reflect u rec.normal + m.roughness * rnd_sphere
  let scattered : Ray := ⟨rec.p, reflected⟩
  ((if 0 < dot scattered.dir rec.normal then true else false), m.albedo, scattered)

/-- `Dielectric` from `src/material.rs`. -/
structure Dielectric where
  ref_idx : ℝ

/-- `schlick` from `src/material.rs`. -/
noncomputable def schlick (cosine ref_idx : ℝ) : ℝ :=
  let r0 := (1 - ref_idx) / (1 + ref_idx)
  let r0sq := r0 ^ 2
  r0sq + (1 - r0sq) * (1 - cosine) ^ 5

/-- `Dielectric::scatter`: result is `(return value, attenuation, scattered)`;
`rnd` is the `random_f32()` draw in `[0,1)`.  Attenuation is always white;
the branch order is: total internal reflection, Schlick-probability
reflection, refraction. -/
noncomputable def Dielectric.scatter (d : Dielectric) (r_in : Ray)
    (rec : HitRecord) (rnd : ℝ) : Bool × Color × Ray :=
  let attenuation : Color := ⟨1, 1, 1⟩
  let etai_over_etat := if rec.front_face then 1 / d.ref_idx else d.ref_idx
  let unit_dir := unit_vector r_in.dir
  let dotted := dot (-unit_dir) rec.normal
  let cos_theta := min dotted 1
  let sin_theta := Real.sqrt (1 - cos_theta ^ 2)
  if 1 < etai_over_etat * sin_theta then
    (true, attenuation, ⟨rec.p, reflect unit_dir rec.normal⟩)
  else if rnd < schlick cos_theta etai_over_etat then
    (true, attenuation, ⟨rec.p, reflect unit_dir rec.normal⟩)
  else
    (true, attenuation, ⟨rec.p, refract unit_dir rec.normal etai_over_etat⟩)

/-- Dispatch of `rec.mat.scatter(..)` as called by `ray_color` in
`src/main.rs`, handing each material kind the random draw it consumes. -/
noncomputable def Material.scatter (m : Material) (r_in : Ray)
    (rec : HitRecord) (rnd_unit rnd_sphere : Vec3) (rnd : ℝ) :
    Bool × Color × Ray :=
  match m with
  | Material.lambertian albedo => Lambertian.scatter ⟨albedo⟩ r_in rec rnd_unit
  | Material.metal albedo roughness => Metal.scatter ⟨albedo, roughness⟩ r_in rec rnd_sphere
  | Material.dielectric ref_idx => Dielectric.scatter ⟨ref_idx⟩ r_in rec rnd

/-- `degrees_to_radians` from `src/main.rs`. -/
noncomputable def degrees_to_radians (degrees : ℝ) : ℝ :=
  degrees * Real.pi / 180

/-- `Camera` from `src/camera.rs`. -/
structure Camera where
  origin : Point3
  lower_left_corner : Point3
  horizontal : Vec3
  vertical : Vec3
  u : Vec3
  v : Vec3
  w : Vec3
  lens_radius : ℝ

/-- `Camera::new` from `src/camera.rs`. -/
noncomputable def Camera.new (vfov aspect_ratio aperture focus_dist : ℝ)
    (look_from look_at : Point3) (vup : Vec3) : Camera :=
  let theta := degrees_to_radians vfov
  let h := Real.tan (theta / 2)
  let viewport_height := 2 * h
  let viewport_width := aspect_ratio * viewport_height
  let w := unit_vector (look_from - look_at)
  let u := unit_vector (cross vup w)
  let v := cross w u
  let origin := look_from
  let horizontal := focus_dist * viewport_width * u
  let vertical := focus_dist * viewport_height * v
  let lower_left_corner := origin - horizontal / (2:ℝ) - vertical / (2:ℝ) - focus_dist * w
  let lens_radius := aperture / 2
  ⟨origin, lower_left_corner, horizontal, vertical, u, v, w, lens_radius⟩

/-- `Camera::get_ray(u, v)` from `src/camera.rs` (the image-plane coordinates
are named `s`, `t` here because the source shadows its parameters with
locals); `rnd_disk` is the `random_in_unit_disk()` draw. -/
noncomputable def Camera.get_ray (c : Camera) (s t : ℝ) (rnd_disk : Vec3) : Ray :=
  let rd := c.lens_radius * rnd_disk
  let offset := c.u * rd.x + c.v * rd.y
  let o := c.origin + offset
  let d := c.lower_left_corner + s * c.horizontal + t * c.vertical - c.origin - offset
  ⟨o, d⟩

/-- `ray_color` from `src/main.rs`.  The `Hittable::hit` of the scene is the
function `world`; `f32::INFINITY` has no exact-real counterpart, so the
`t_max` bound passed to the scene is the parameter `inf`; the per-bounce
random draws are indexed by the remaining depth. -/
noncomputable def ray_color (world : Ray → ℝ → ℝ → Option HitRecord)
    (rnd_unit rnd_sphere : Nat → Vec3) (rnd : Nat → ℝ) (inf : ℝ) :
    Ray → Nat → Color
  | _, 0 => ⟨0, 0, 0⟩
  | r, d + 1 =>
    match world r 0.001 inf with
    | some hrec =>
      let res := hrec.mat.scatter r hrec (rnd_unit d) (rnd_sphere d) (rnd d)
      if res.1 then res.2.1 * ray_color world rnd_unit rnd_sphere rnd inf res.2.2 d
      else ⟨0, 0, 0⟩
    | none =>
      let unit_dir := unit_vector r.dir
      let t := 0.5 * (unit_dir.y + 1)
      (1 - t) * (⟨1, 1, 1⟩ : Color) + t * (⟨0.5, 0.7, 1⟩ : Color)

/-- `set_face_normal` leaves the `p` and `t` fields alone, so the record built
by `Sphere::hit` carries the accepted root as its `t`. -/
theorem mkHit_t (s : Sphere) (r : Ray) (t : ℝ) : (s.mkHit r t).t = t := rfl

/-- The record built by `Sphere::hit` stores `r.at t` as its hit point. -/
theorem mkHit_p (s : Sphere) (r : Ray) (t : ℝ) : (s.mkHit r t).p = r.at t := rfl

/-- When the quadratic coefficient `a = |direction|²` is positive, the first
root tried by `Sphere::hit` is the smaller one. -/
theorem root1_le_root2 (s : Sphere) (r : Ray) (ha : 0 < hitA r) :
    s.root1 r ≤ s.root2 r := by
  unfold Sphere.root1 Sphere.root2
  apply div_le_div_of_nonneg_right ?_ ha.le
  have := Real.sqrt_nonneg (s.discriminant r)
  linarith

/-- C1: for every ray with `a = |direction|² > 0` and every interval with
`t_min < t_max`, `Sphere::hit` returns a hit if and only if the discriminant
`half_b² - a·c` is strictly positive and at least one quadratic root lies
strictly inside `(t_min, t_max)`; when it returns a hit, the returned `t` is
the smallest root strictly inside the interval and the hit point equals
`ray.at(t)`; and a non-positive discriminant yields no hit. -/
theorem sphere_hit_characterization (s : Sphere) (r : Ray) (t_min t_max : ℝ)
    (ha : 0 < hitA r) (hw : t_min < t_max) :
    ((s.hit r t_min t_max).isSome ↔
      0 < s.discriminant r ∧
        ((t_min < s.root1 r ∧ s.root1 r < t_max) ∨
         (t_min < s.root2 r ∧ s.root2 r < t_max))) ∧
    (∀ hrec, s.hit r t_min t_max = some hrec →
      IsLeast {t | (t = s.root1 r ∨ t = s.root2 r) ∧ t_min < t ∧ t < t_max} hrec.t ∧
      hrec.p = r.at hrec.t) ∧
    (s.discriminant r ≤ 0 → s.hit r t_min t_max = none) := by
  have hroots := root1_le_root2 s r ha
  unfold Sphere.hit
  split_ifs with hd h1 h2
  · -- root1 accepted
    refine ⟨by simp [hd, h1.1, h1.2], ?_, fun hle => absurd hd (not_lt.mpr hle)⟩
    intro hrec hh
    rw [Option.some.injEq] at hh
    subst hh
    refine ⟨⟨⟨Or.inl (mkHit_t s r _), by rw [mkHit_t]; exact h1.2, by rw [mkHit_t]; exact h1.1⟩, ?_⟩, mkHit_p s r _⟩
    rintro t ⟨ht | ht, htw1, htw2⟩ <;> rw [mkHit_t, ht]
    exact hroots
  · -- root2 accepted, root1 rejected
    refine ⟨by simp [hd, h2.1, h2.2], ?_, fun hle => absurd hd (not_lt.mpr hle)⟩
    intro hrec hh
    rw [Option.some.injEq] at hh
    subst hh
    refine ⟨⟨⟨Or.inr (mkHit_t s r _), by rw [mkHit_t]; exact h2.2, by rw [mkHit_t]; exact h2.1⟩, ?_⟩, mkHit_p s r _⟩
    rintro t ⟨ht | ht, htw1, htw2⟩
    · subst ht
      exact absurd ⟨htw2, htw1⟩ h1
    · rw [mkHit_t, ht]
  · -- discriminant positive but both roots rejected
    refine ⟨?_, by intro hrec hh; exact absurd hh (by simp), fun hle => absurd hd (not_lt.mpr hle)⟩
    simp only [Option.isSome_none, Bool.false_eq_true, false_iff]
    rintro ⟨-, ⟨hw1, hw2⟩ | ⟨hw1, hw2⟩⟩
    · exact h1 ⟨hw2, hw1⟩
    · exact h2 ⟨hw2, hw1⟩
  · -- discriminant non-positive
    refine ⟨?_, by intro hrec hh; exact absurd hh (by simp), fun _ => rfl⟩
    simp only [Option.isSome_none, Bool.false_eq_true, false_iff]
    rintro ⟨hd2, -⟩
    exact hd hd2

/-- Concrete unit sphere at the origin, used to exercise the theorems. -/
noncomputable def csph : Sphere := ⟨⟨0, 0, 0⟩, 1, Material.lambertian ⟨1, 0, 0⟩⟩

/-- Concrete ray from `(0,0,2)` straight along `-z`. -/
noncomputable def cray : Ray := ⟨⟨0, 0, 2⟩, ⟨0, 0, -1⟩⟩

/-- The hit record `Sphere::hit` produces for `csph` and `cray` on `(0, 10)`:
entry point `(0,0,1)` at `t = 1` with outward normal `(0,0,1)`. -/
noncomputable def crec : HitRecord :=
  ⟨⟨0, 0, 1⟩, ⟨0, 0, 1⟩, 1, true, Material.lambertian ⟨1, 0, 0⟩⟩

theorem cray_a : hitA cray = 1 := by
  simp [hitA, cray, Vec3.length_sqrd]

theorem csph_halfb : csph.half_b cray = -2 := by
  simp [Sphere.half_b, Sphere.oc, dot, csph, cray]

theorem csph_cq : csph.cq cray = 3 := by
  norm_num [Sphere.cq, Sphere.oc, Vec3.length_sqrd, csph, cray]

theorem csph_disc : csph.discriminant cray = 1 := by
  rw [Sphere.discriminant, csph_halfb, cray_a, csph_cq]
  norm_num

theorem csph_root1 : csph.root1 cray = 1 := by
  rw [Sphere.root1, csph_disc, csph_halfb, cray_a, Real.sqrt_one]
  norm_num

theorem csph_root2 : csph.root2 cray = 3 := by
  rw [Sphere.root2, csph_disc, csph_halfb, cray_a, Real.sqrt_one]
  norm_num

theorem cray_at_one : cray.at 1 = ⟨0, 0, 1⟩ := by
  apply Vec3.eq_of_comps <;> norm_num [Ray.at, cray]

theorem csph_outward : ((⟨0, 0, 1⟩ : Vec3) - csph.center) / csph.radius = ⟨0, 0, 1⟩ := by
  apply Vec3.eq_of_comps <;> norm_num [csph]

theorem csph_mkhit : csph.mkHit cray 1 = crec := by
  simp only [Sphere.mkHit]
  rw [cray_at_one, csph_outward]
  simp only [HitRecord.set_face_normal]
  have hdot : dot cray.dir ⟨0, 0, 1⟩ = -1 := by simp [dot, cray]
  rw [hdot]
  rw [if_pos (by norm_num : (-1:ℝ) < 0)]
  simp [crec, csph]

theorem csph_hit_eval : csph.hit cray 0 10 = some crec := by
  unfold Sphere.hit
  rw [csph_disc, csph_root1]
  rw [if_pos (by norm_num : (0:ℝ) < 1),
      if_pos (⟨by norm_num, by norm_num⟩ : (1:ℝ) < 10 ∧ (0:ℝ) < 1)]
  rw [csph_mkhit]

/-- Witness for C1: the concrete sphere and ray satisfy the hypotheses, and
the characterization decides that they intersect on `(0, 10)`. -/
theorem sphere_hit_characterization_witness :
    0 < hitA cray ∧ (0:ℝ) < 10 ∧ (csph.hit cray 0 10).isSome := by
  refine ⟨by rw [cray_a]; norm_num, by norm_num, ?_⟩
  exact (sphere_hit_characterization csph cray 0 10 (by rw [cray_a]; norm_num)
    (by norm_num)).1.mpr
    ⟨by rw [csph_disc]; norm_num,
     Or.inl ⟨by rw [csph_root1]; norm_num, by rw [csph_root1]; norm_num⟩⟩

theorem dot_neg_right (a b : Vec3) : dot a (-b) = -dot a b := by
  simp [dot]
  ring

/-- The record built by `Sphere::hit` obeys the front-face convention: the
flag is `dot(dir, outward) < 0`, the stored normal is the outward normal or
its negation according to the flag, and the stored normal never makes a
positive dot product with the ray direction. -/
theorem mkHit_spec (s : Sphere) (r : Ray) (t : ℝ) :
    dot r.dir (s.mkHit r t).normal ≤ 0 ∧
    ((s.mkHit r t).front_face = true ↔
      dot r.dir (((s.mkHit r t).p - s.center) / s.radius) < 0) ∧
    (s.mkHit r t).normal =
      (if (s.mkHit r t).front_face then ((s.mkHit r t).p - s.center) / s.radius
       else -(((s.mkHit r t).p - s.center) / s.radius)) := by
  have hp : (s.mkHit r t).p = r.at t := mkHit_p s r t
  by_cases h : dot r.dir ((r.at t - s.center) / s.radius) < 0
  · have hff : (s.mkHit r t).front_face = true := by
      simp only [Sphere.mkHit, HitRecord.set_face_normal]
      rw [if_pos h]
    have hn : (s.mkHit r t).normal = (r.at t - s.center) / s.radius := by
      simp only [Sphere.mkHit, HitRecord.set_face_normal]
      rw [if_pos h]
      simp
    refine ⟨by rw [hn]; exact h.le, by rw [hff, hp]; simp [h], by rw [hn, hff, hp]; simp⟩
  · have hff : (s.mkHit r t).front_face = false := by
      simp only [Sphere.mkHit, HitRecord.set_face_normal]
      rw [if_neg h]
    have hn : (s.mkHit r t).normal = -((r.at t - s.center) / s.radius) := by
      simp only [Sphere.mkHit, HitRecord.set_face_normal]
      rw [if_neg h]
      simp
    have hle : 0 ≤ dot r.dir ((r.at t - s.center) / s.radius) := not_lt.mp h
    refine ⟨?_, by rw [hff, hp]; simp [h], by rw [hn, hff, hp]; simp⟩
    rw [hn, dot_neg_right]
    linarith

/-- C3: for every hit record produced by `Sphere::hit` (which calls
`set_face_normal` with outward normal `(p - center)/radius`), the stored
normal satisfies `dot(ray.direction, normal) ≤ 0` in both the front-facing
and back-facing cases; `front_face` is true exactly when
`dot(ray.direction, outward_normal) < 0`, and the stored normal is the
outward normal when front-facing and its negation otherwise. -/
theorem hit_record_normal_convention (s : Sphere) (r : Ray) (t_min t_max : ℝ) :
    ∀ hrec, s.hit r t_min t_max = some hrec →
      dot r.dir hrec.normal ≤ 0 ∧
      (hrec.front_face = true ↔ dot r.dir ((hrec.p - s.center) / s.radius) < 0) ∧
      hrec.normal = (if hrec.front_face then (hrec.p - s.center) / s.radius
                     else -((hrec.p - s.center) / s.radius)) := by
  intro hrec hh
  unfold Sphere.hit at hh
  split_ifs at hh with hd h1 h2
  · rw [Option.some.injEq] at hh
    subst hh
    exact mkHit_spec s r _
  · rw [Option.some.injEq] at hh
    subst hh
    exact mkHit_spec s r _

/-- Witness for C3 at the concrete sphere, ray and hit record. -/
theorem hit_record_normal_convention_witness :
    dot cray.dir crec.normal ≤ 0 ∧
    (crec.front_face = true ↔ dot cray.dir ((crec.p - csph.center) / csph.radius) < 0) ∧
    crec.normal = (if crec.front_face then (crec.p - csph.center) / csph.radius
                   else -((crec.p - csph.center) / csph.radius)) :=
  hit_record_normal_convention csph cray 0 10 crec csph_hit_eval

/-- A hit reported by `Sphere::hit` lies strictly inside the query window. -/
theorem sphere_hit_t_mem (s : Sphere) (r : Ray) (t_min w : ℝ) (hrec : HitRecord)
    (hh : s.hit r t_min w = some hrec) : t_min < hrec.t ∧ hrec.t < w := by
  unfold Sphere.hit at hh
  split_ifs at hh with hd h1 h2 <;> rw [Option.some.injEq] at hh <;> subst hh <;>
    rw [mkHit_t]
  · exact ⟨h1.2, h1.1⟩
  · exact ⟨h2.2, h2.1⟩

/-- Widening the upper end of the window preserves a reported hit verbatim
(the code tries the smaller root first, so the accepted root cannot change). -/
theorem sphere_hit_mono (s : Sphere) (r : Ray) (t_min w W : ℝ) (hrec : HitRecord)
    (ha : 0 < hitA r) (hwW : w ≤ W) (hh : s.hit r t_min w = some hrec) :
    s.hit r t_min W = some hrec := by
  have hroots := root1_le_root2 s r ha
  unfold Sphere.hit at hh ⊢
  split_ifs at hh with hd h1 h2
  · rw [if_pos hd, if_pos ⟨lt_of_lt_of_le h1.1 hwW, h1.2⟩]
    exact hh
  · rw [if_pos hd]
    have hr1w : s.root1 r < w := lt_of_le_of_lt hroots h2.1
    have hnot : ¬(s.root1 r < W ∧ t_min < s.root1 r) := by
      rintro ⟨-, hmin⟩
      exact h1 ⟨hr1w, hmin⟩
    rw [if_neg hnot, if_pos ⟨lt_of_lt_of_le h2.1 hwW, h2.2⟩]
    exact hh

/-- If `Sphere::hit` reports no hit on a window `(t_min, w)`, then any hit it
reports on a wider window has parameter at least `w`. -/
theorem sphere_hit_none_lb (s : Sphere) (r : Ray) (t_min w W : ℝ) (hrec : HitRecord)
    (hnone : s.hit r t_min w = none) (hh : s.hit r t_min W = some hrec) :
    w ≤ hrec.t := by
  unfold Sphere.hit at hnone hh
  split_ifs at hnone with hd h1 h2
  · rw [if_pos hd] at hh
    split_ifs at hh with g1 g2 <;> rw [Option.some.injEq] at hh <;> subst hh <;>
      rw [mkHit_t]
    · exact not_lt.mp fun hcon => h1 ⟨hcon, g1.2⟩
    · exact not_lt.mp fun hcon => h2 ⟨hcon, g2.2⟩
  · rw [if_neg hd] at hh
    exact absurd hh (by simp)

/-- Once `hit_anything` is set, the loop reports a hit. -/
theorem listHitGo_true (r : Ray) (t_min : ℝ) (objs : List Sphere) :
    ∀ (closest : ℝ) (temp rec0 : HitRecord),
      (listHitGo r t_min objs true closest temp rec0).1 = true := by
  induction objs with
  | nil => intro closest temp rec0; rfl
  | cons obj rest ih =>
    intro closest temp rec0
    rw [listHitGo]
    cases hobj : obj.hit r t_min closest with
    | some rec2 => exact ih rec2.t rec2 rec2
    | none => exact ih closest temp rec0

/-- Invariant of the `HittableList::hit` loop after the first accepted hit:
the flag stays set, the tracked parameter only shrinks, the final record is
the incumbent or the report of a member on the full window, and no report of a member
on the full window beats the final record. -/
theorem listHitGo_B (r : Ray) (t_min t_max : ℝ) (ha : 0 < hitA r)
    (rest : List Sphere) :
    ∀ (m : ℝ) (temp recX : HitRecord), recX.t = m → m ≤ t_max →
      (listHitGo r t_min rest true m temp recX).1 = true ∧
      (listHitGo r t_min rest true m temp recX).2.t ≤ m ∧
      ((listHitGo r t_min rest true m temp recX).2 = recX ∨
        ∃ q ∈ rest, q.hit r t_min t_max = some (listHitGo r t_min rest true m temp recX).2) ∧
      (∀ q ∈ rest, ∀ hrec, q.hit r t_min t_max = some hrec →
        (listHitGo r t_min rest true m temp recX).2.t ≤ hrec.t) := by
  induction rest with
  | nil =>
    intro m temp recX hx hm
    refine ⟨rfl, ?_, Or.inl rfl, ?_⟩
    · rw [listHitGo, hx]
    · intro q hq
      exact absurd hq (List.not_mem_nil q)
  | cons obj rest ih =>
    intro m temp recX hx hm
    rw [listHitGo]
    cases hobj : obj.hit r t_min m with
    | none =>
      obtain ⟨ih1, ih2, ih3, ih4⟩ := ih m temp recX hx hm
      refine ⟨ih1, ih2, ?_, ?_⟩
      · rcases ih3 with h | ⟨q, hq, hqh⟩
        · exact Or.inl h
        · exact Or.inr ⟨q, List.mem_cons_of_mem obj hq, hqh⟩
      · intro q hq hrec hqh
        rcases List.mem_cons.mp hq with hq | hq
        · subst hq
          have hwle := sphere_hit_none_lb q r t_min m t_max hrec hobj hqh
          linarith
        · exact ih4 q hq hrec hqh
    | some rec2 =>
      have hmem := sphere_hit_t_mem obj r t_min m rec2 hobj
      have hfull : obj.hit r t_min t_max = some rec2 :=
        sphere_hit_mono obj r t_min m t_max rec2 ha hm hobj
      obtain ⟨ih1, ih2, ih3, ih4⟩ := ih rec2.t rec2 rec2 rfl (by linarith [hmem.2])
      refine ⟨ih1, by linarith [hmem.2], ?_, ?_⟩
      · rcases ih3 with h | ⟨q, hq, hqh⟩
        · exact Or.inr ⟨obj, List.mem_cons_self obj rest, by rw [h]; exact hfull⟩
        · exact Or.inr ⟨q, List.mem_cons_of_mem obj hq, hqh⟩
      · intro q hq hrec hqh
        rcases List.mem_cons.mp hq with hq | hq
        · subst hq
          rw [hfull, Option.some.injEq] at hqh
          subst hqh
          exact ih2
        · exact ih4 q hq hrec hqh

/-- Specification of the `HittableList::hit` loop started in its initial
state: the flag is set exactly when some member hits the full window, and on
a hit the final record is the full-window report of some member and beats the
full-window report of every member. -/
theorem listHitGo_A (r : Ray) (t_min t_max : ℝ) (ha : 0 < hitA r)
    (objs : List Sphere) :
    ∀ (temp rec0 : HitRecord),
      ((listHitGo r t_min objs false t_max temp rec0).1 = true ↔
        ∃ s ∈ objs, (s.hit r t_min t_max).isSome) ∧
      ((listHitGo r t_min objs false t_max temp rec0).1 = true →
        (∃ s ∈ objs, s.hit r t_min t_max =
          some (listHitGo r t_min objs false t_max temp rec0).2) ∧
        ∀ s ∈ objs, ∀ hrec, s.hit r t_min t_max = some hrec →
          (listHitGo r t_min objs false t_max temp rec0).2.t ≤ hrec.t) := by
  induction objs with
  | nil =>
    intro temp rec0
    constructor
    · simp [listHitGo]
    · intro hcon
      exact absurd hcon (by simp [listHitGo])
  | cons obj rest ih =>
    intro temp rec0
    rw [listHitGo]
    cases hobj : obj.hit r t_min t_max with
    | none =>
      dsimp only
      obtain ⟨ih1, ih2⟩ := ih temp rec0
      constructor
      · rw [ih1]
        constructor
        · rintro ⟨s, hs, hsh⟩
          exact ⟨s, List.mem_cons_of_mem obj hs, hsh⟩
        · rintro ⟨s, hs, hsh⟩
          rcases List.mem_cons.mp hs with hs | hs
          · subst hs
            rw [hobj] at hsh
            exact absurd hsh (by simp)
          · exact ⟨s, hs, hsh⟩
      · intro htrue
        obtain ⟨⟨s, hs, hsh⟩, hmin⟩ := ih2 htrue
        refine ⟨⟨s, List.mem_cons_of_mem obj hs, hsh⟩, ?_⟩
        intro q hq hrec hqh
        rcases List.mem_cons.mp hq with hq | hq
        · subst hq
          rw [hobj] at hqh
          exact absurd hqh (by simp)
        · exact hmin q hq hrec hqh
    | some rec2 =>
      dsimp only
      have hmem := sphere_hit_t_mem obj r t_min t_max rec2 hobj
      obtain ⟨b1, b2, b3, b4⟩ :=
        listHitGo_B r t_min t_max ha rest rec2.t rec2 rec2 rfl hmem.2.le
      constructor
      · rw [b1]
        simp only [true_iff]
        exact ⟨obj, List.mem_cons_self obj rest, by rw [hobj]; rfl⟩
      · intro _
        refine ⟨?_, ?_⟩
        · rcases b3 with h | ⟨q, hq, hqh⟩
          · exact ⟨obj, List.mem_cons_self obj rest, by rw [h]; exact hobj⟩
          · exact ⟨q, List.mem_cons_of_mem obj hq, hqh⟩
        · intro q hq hrec hqh
          rcases List.mem_cons.mp hq with hq | hq
          · subst hq
            rw [hobj, Option.some.injEq] at hqh
            subst hqh
            exact b2
          · exact b4 q hq hrec hqh

/-- C2: for every ray with `a = |direction|² > 0` and every interval,
`HittableList::hit` reports a hit exactly when some member reports a hit
strictly inside `(t_min, t_max)`; when it does, the record it stores is some
report of some member on the full window and carries the minimal parameter `t`
among the reports of all members (the closest hit).  The members, modelled as pure
values, are not mutated: the loop only narrows its private `closest_so_far`
and writes the record of the caller. -/
theorem hittable_list_hit_closest (objects : List Sphere) (r : Ray)
    (t_min t_max : ℝ) (rec0 : HitRecord) (ha : 0 < hitA r) :
    ((HittableList.hit objects r t_min t_max rec0).1 = true ↔
      ∃ s ∈ objects, (s.hit r t_min t_max).isSome) ∧
    ((HittableList.hit objects r t_min t_max rec0).1 = true →
      (∃ s ∈ objects, s.hit r t_min t_max =
        some (HittableList.hit objects r t_min t_max rec0).2) ∧
      ∀ s ∈ objects, ∀ hrec, s.hit r t_min t_max = some hrec →
        (HittableList.hit objects r t_min t_max rec0).2.t ≤ hrec.t) :=
  listHitGo_A r t_min t_max ha objects hitRecordDefault rec0

/-- Witness for C2: on the one-sphere scene the list reports a hit. -/
theorem hittable_list_hit_closest_witness :
    0 < hitA cray ∧ (HittableList.hit [csph] cray 0 10 hitRecordDefault).1 = true := by
  refine ⟨by rw [cray_a]; norm_num, ?_⟩
  exact (hittable_list_hit_closest [csph] cray 0 10 hitRecordDefault
    (by rw [cray_a]; norm_num)).1.mpr
    ⟨csph, List.mem_singleton_self csph, by rw [csph_hit_eval]; rfl⟩

/-- If the loop never accepts a hit, the record of the caller is returned as it
was passed in. -/
theorem listHitGo_false_frame (r : Ray) (t_min : ℝ) (objs : List Sphere) :
    ∀ (b : Bool) (closest : ℝ) (temp rec0 : HitRecord),
      (listHitGo r t_min objs b closest temp rec0).1 = false →
      (listHitGo r t_min objs b closest temp rec0).2 = rec0 := by
  induction objs with
  | nil => intro b closest temp rec0 _; rfl
  | cons obj rest ih =>
    intro b closest temp rec0 hfalse
    rw [listHitGo] at hfalse ⊢
    cases hobj : obj.hit r t_min closest with
    | some rec2 =>
      rw [hobj] at hfalse
      exact absurd hfalse (by rw [listHitGo_true r t_min rest]; simp)
    | none =>
      rw [hobj] at hfalse
      exact ih b closest temp rec0 hfalse

/-- C10: when `HittableList::hit` returns `false` (no member reports a hit
strictly inside the window — in particular for an empty list), the
caller-supplied record is left entirely unchanged: candidate hits are staged
in the temporary record and copied to the output record only on a hit. -/
theorem hittable_list_miss_frame (objects : List Sphere) (r : Ray)
    (t_min t_max : ℝ) (rec0 : HitRecord)
    (h : (HittableList.hit objects r t_min t_max rec0).1 = false) :
    (HittableList.hit objects r t_min t_max rec0).2 = rec0 :=
  listHitGo_false_frame r t_min objects false t_max hitRecordDefault rec0 h

/-- Witness for C10: the empty scene misses, and the record passed in comes
back unchanged. -/
theorem hittable_list_miss_frame_witness :
    (HittableList.hit [] cray 0 10 crec).1 = false ∧
    (HittableList.hit [] cray 0 10 crec).2 = crec :=
  ⟨rfl, hittable_list_miss_frame [] cray 0 10 crec rfl⟩

/-- C4: `Metal::scatter` signals absorption (returns `false`) exactly when
the perturbed reflection direction
`reflect(normalize(incoming.direction), normal) + roughness · random_in_unit_sphere()`
has non-positive dot product with the hit normal; in every case the
attenuation is the albedo of the metal, the scattered ray starts at the hit point,
and its direction is that perturbed reflection. -/
theorem metal_scatter_spec (m : Metal) (r_in : Ray) (hrec : HitRecord)
    (rnd_sphere : Vec3) :
    ((Metal.scatter m r_in hrec rnd_sphere).1 = false ↔
      dot (Metal.scatter m r_in hrec rnd_sphere).2.2.dir hrec.normal ≤ 0) ∧
    (Metal.scatter m r_in hrec rnd_sphere).2.1 = m.albedo ∧
    (Metal.scatter m r_in hrec rnd_sphere).2.2.orig = hrec.p ∧
    (Metal.scatter m r_in hrec rnd_sphere).2.2.dir =
      reflect (unit_vector r_in.dir) hrec.normal + m.roughness * rnd_sphere := by
  unfold Metal.scatter
  dsimp only
  refine ⟨?_, rfl, rfl, rfl⟩
  split_ifs with h
  · simp [h.not_le]
  · simp [not_lt.mp h]

/-- C6 counterexample: the constructor does not clamp from below — input
roughness `-2` is stored as `-2`, outside `[0, 1]`. -/
theorem metal_new_clamp_counterexample :
    ¬(0 ≤ (Metal.new ⟨0, 0, 0⟩ (-2)).roughness ∧
      (Metal.new ⟨0, 0, 0⟩ (-2)).roughness ≤ 1) := by
  unfold Metal.new
  dsimp only
  rw [min_eq_left (by norm_num : (-2:ℝ) ≤ 1)]
  intro hcon
  linarith [hcon.1]

/-- C6 amended: the `Metal` constructor clamps its roughness parameter from
above only: the stored roughness is `min(input, 1)`, hence at most `1`;
inputs below `0` are stored unchanged. -/
theorem metal_new_clamps_above (albedo : Color) (r : ℝ) :
    (Metal.new albedo r).roughness = min r 1 ∧ (Metal.new albedo r).roughness ≤ 1 :=
  ⟨rfl, min_le_right r 1⟩

/-- C7: `Lambertian::scatter` and `Dielectric::scatter` never signal
absorption: both return `true` for every incoming ray, hit record, and random
draw; Lambertian sets the attenuation to its albedo and scatters from the hit
point in direction `normal + random_unit_vector()`, and Dielectric sets the
attenuation to white `(1,1,1)` in every branch. -/
theorem scatter_never_absorbs (l : Lambertian) (d : Dielectric) (r_in : Ray)
    (hrec : HitRecord) (rnd_unit : Vec3) (rnd : ℝ) :
    (Lambertian.scatter l r_in hrec rnd_unit).1 = true ∧
    (Lambertian.scatter l r_in hrec rnd_unit).2.1 = l.albedo ∧
    (Lambertian.scatter l r_in hrec rnd_unit).2.2 = ⟨hrec.p, hrec.normal + rnd_unit⟩ ∧
    (Dielectric.scatter d r_in hrec rnd).1 = true ∧
    (Dielectric.scatter d r_in hrec rnd).2.1 = ⟨1, 1, 1⟩ := by
  refine ⟨rfl, rfl, rfl, ?_, ?_⟩ <;>
    (unfold Dielectric.scatter; dsimp only; split_ifs <;> rfl)

/-- C8: the integrator `ray_color` called with a depth budget of `0` returns
exactly black for every ray, every scene (the scene intersection function is
universally quantified, so the result cannot depend on it — the scene and the
materials are never queried), and every random stream and `t_max` bound. -/
theorem ray_color_depth_zero (world : Ray → ℝ → ℝ → Option HitRecord)
    (rnd_unit rnd_sphere : Nat → Vec3) (rnd : Nat → ℝ) (inf : ℝ) (r : Ray) :
    ray_color world rnd_unit rnd_sphere rnd inf r 0 = ⟨0, 0, 0⟩ := rfl

/-- With a zero lens radius the random disk sample is nullified: `get_ray`
is the unperturbed pinhole ray from the camera origin. -/
theorem camera_lens_zero_get_ray (c : Camera) (h : c.lens_radius = 0)
    (s t : ℝ) (rd : Vec3) :
    c.get_ray s t rd =
      ⟨c.origin, c.lower_left_corner + s * c.horizontal + t * c.vertical - c.origin⟩ := by
  unfold Camera.get_ray
  dsimp only
  rw [h]
  have hoff : c.u * ((0:ℝ) * rd).x + c.v * ((0:ℝ) * rd).y = (⟨0, 0, 0⟩ : Vec3) := by
    apply Vec3.eq_of_comps <;> simp
  rw [hoff]
  have hadd : c.origin + (⟨0, 0, 0⟩ : Vec3) = c.origin := by
    apply Vec3.eq_of_comps <;> simp
  have hsub : c.lower_left_corner + s * c.horizontal + t * c.vertical - c.origin -
      (⟨0, 0, 0⟩ : Vec3) =
      c.lower_left_corner + s * c.horizontal + t * c.vertical - c.origin := by
    apply Vec3.eq_of_comps <;> simp
  rw [hadd, hsub]

/-- C9: a camera constructed with `aperture = 0` (so `lens_radius = 0`)
produces deterministic rays: for a fixed `(s, t)` the rays obtained from any
two random unit-disk draws coincide, and their origin is the camera origin. -/
theorem camera_aperture_zero_deterministic (vfov aspect_ratio focus_dist : ℝ)
    (look_from look_at : Point3) (vup : Vec3) (s t : ℝ) (rd rd2 : Vec3) :
    (Camera.new vfov aspect_ratio 0 focus_dist look_from look_at vup).get_ray s t rd =
      (Camera.new vfov aspect_ratio 0 focus_dist look_from look_at vup).get_ray s t rd2 ∧
    ((Camera.new vfov aspect_ratio 0 focus_dist look_from look_at vup).get_ray s t rd).orig =
      (Camera.new vfov aspect_ratio 0 focus_dist look_from look_at vup).origin := by
  have hl : (Camera.new vfov aspect_ratio 0 focus_dist look_from look_at vup).lens_radius = 0 := by
    unfold Camera.new
    dsimp only
    norm_num
  rw [camera_lens_zero_get_ray _ hl, camera_lens_zero_get_ray _ hl]
  exact ⟨rfl, rfl⟩

/-- A normalized nonzero vector has unit squared length. -/
theorem unit_vector_length_sqrd (v : Vec3) (h : 0 < v.length_sqrd) :
    (unit_vector v).length_sqrd = 1 := by
  have hL2 : Real.sqrt v.length_sqrd ^ 2 = v.length_sqrd := Real.sq_sqrt h.le
  have hLpos : 0 < Real.sqrt v.length_sqrd := Real.sqrt_pos.mpr h
  unfold unit_vector Vec3.length
  unfold Vec3.length_sqrd at h hL2 ⊢
  simp only [div_x, div_y, div_z]
  field_simp

/-- Cauchy-Schwarz consequence: for unit vectors the dot product of `-u`
with `n` is at most `1`. -/
theorem dot_neg_le_one (u n : Vec3) (hu : u.length_sqrd = 1)
    (hn : n.length_sqrd = 1) : dot (-u) n ≤ 1 := by
  unfold Vec3.length_sqrd at hu hn
  simp only [dot, neg_x, neg_y, neg_z]
  nlinarith [sq_nonneg (u.x + n.x), sq_nonneg (u.y + n.y), sq_nonneg (u.z + n.z)]

/-- At `η = 1`, `refract` is the identity on a unit incoming direction with a
unit normal that opposes it (the law of Snell is an identity). -/
theorem refract_eta_one (u n : Vec3) (hu : u.length_sqrd = 1)
    (hn : n.length_sqrd = 1) (hc : 0 ≤ dot (-u) n) : refract u n 1 = u := by
  simp only [refract]
  set c := dot (-u) n with hcdef
  have huv : u.x * n.x + u.y * n.y + u.z * n.z = -c := by
    rw [hcdef]
    simp only [dot, neg_x, neg_y, neg_z]
    ring
  have hpar : ((1:ℝ) * (u + c * n)).length_sqrd = 1 - c ^ 2 := by
    unfold Vec3.length_sqrd at hu hn ⊢
    simp only [smul_left_x, smul_left_y, smul_left_z, add_x, add_y, add_z]
    nlinarith [hu, hn, huv]
  rw [hpar]
  have h1 : (1:ℝ) - (1 - c ^ 2) = c ^ 2 := by ring
  rw [h1, Real.sqrt_sq hc]
  apply Vec3.eq_of_comps <;> simp

/-- `Dielectric::scatter` in the refraction branch: when total internal
reflection does not trigger and the random draw is not below the Schlick
reflectance, the result is the refracted ray with white attenuation. -/
theorem diel_scatter_refract_branch (d : Dielectric) (r_in : Ray)
    (hrec : HitRecord) (rnd e : ℝ)
    (he : (if hrec.front_face then 1 / d.ref_idx else d.ref_idx) = e)
    (h1 : ¬(1 < e * Real.sqrt (1 - (min (dot (-(unit_vector r_in.dir)) hrec.normal) 1) ^ 2)))
    (h2 : ¬(rnd < schlick (min (dot (-(unit_vector r_in.dir)) hrec.normal) 1) e)) :
    Dielectric.scatter d r_in hrec rnd =
      (true, ⟨1, 1, 1⟩, ⟨hrec.p, refract (unit_vector r_in.dir) hrec.normal e⟩) := by
  simp only [Dielectric.scatter, he]
  rw [if_neg h1, if_neg h2]

/-- C5 amended: for a `Dielectric` with `refractive_index = 1`, the relative
index is `1` on both sides, total internal reflection never triggers, the
attenuation is white and the scatter returns `true`; whenever the uniform
draw is at least the Schlick reflectance `(1 - cos θ)^5` (which is positive
away from normal incidence, so small draws still reflect), the scattered ray
passes straight through: its direction is the normalized incoming direction.
The hit record is assumed well-formed as produced by intersection: unit
normal opposing the incoming direction. -/
theorem dielectric_eta_one_refracts (r_in : Ray) (hrec : HitRecord) (rnd : ℝ)
    (hdir : 0 < r_in.dir.length_sqrd)
    (hn : hrec.normal.length_sqrd = 1)
    (hc : 0 ≤ dot (-(unit_vector r_in.dir)) hrec.normal)
    (hrnd : schlick (min (dot (-(unit_vector r_in.dir)) hrec.normal) 1) 1 ≤ rnd) :
    Dielectric.scatter ⟨1⟩ r_in hrec rnd =
      (true, ⟨1, 1, 1⟩, ⟨hrec.p, unit_vector r_in.dir⟩) := by
  have hu1 : (unit_vector r_in.dir).length_sqrd = 1 :=
    unit_vector_length_sqrd r_in.dir hdir
  have hcle : dot (-(unit_vector r_in.dir)) hrec.normal ≤ 1 :=
    dot_neg_le_one (unit_vector r_in.dir) hrec.normal hu1 hn
  have he : (if hrec.front_face then 1 / (Dielectric.mk 1).ref_idx
             else (Dielectric.mk 1).ref_idx) = 1 := by
    cases hrec.front_face <;> norm_num
  have hsq : Real.sqrt (1 - (min (dot (-(unit_vector r_in.dir)) hrec.normal) 1) ^ 2) ≤ 1 :=
    calc Real.sqrt (1 - (min (dot (-(unit_vector r_in.dir)) hrec.normal) 1) ^ 2) ≤ Real.sqrt 1 :=
          Real.sqrt_le_sqrt
            (by nlinarith [sq_nonneg (min (dot (-(unit_vector r_in.dir)) hrec.normal) 1)])
    _ = 1 := Real.sqrt_one
  have h1 : ¬(1 < 1 * Real.sqrt (1 - (min (dot (-(unit_vector r_in.dir)) hrec.normal) 1) ^ 2)) := by
    rw [one_mul]
    exact not_lt.mpr hsq
  have h2 : ¬(rnd < schlick (min (dot (-(unit_vector r_in.dir)) hrec.normal) 1) 1) :=
    not_lt.mpr hrnd
  rw [diel_scatter_refract_branch ⟨1⟩ r_in hrec rnd 1 he h1 h2,
      refract_eta_one (unit_vector r_in.dir) hrec.normal hu1 hn hc]

/-- Concrete hit record on a dielectric with index 1: hit point at the
origin, unit normal `(0,0,1)`, front-facing. -/
noncomputable def dielRec : HitRecord :=
  ⟨⟨0, 0, 0⟩, ⟨0, 0, 1⟩, 1, true, Material.dielectric 1⟩

/-- Concrete incoming ray with direction `(3,0,-4)` (so `cos θ = 4/5`). -/
noncomputable def dielRay : Ray := ⟨⟨0, 0, 9⟩, ⟨3, 0, -4⟩⟩

theorem dielRay_length : dielRay.dir.length = 5 := by
  have hls : dielRay.dir.length_sqrd = 25 := by
    norm_num [Vec3.length_sqrd, dielRay]
  rw [Vec3.length, hls, show (25:ℝ) = 5 ^ 2 by norm_num,
    Real.sqrt_sq (by norm_num : (0:ℝ) ≤ 5)]

theorem unit_dielRay : unit_vector dielRay.dir = ⟨3/5, 0, -4/5⟩ := by
  rw [unit_vector, dielRay_length]
  apply Vec3.eq_of_comps <;> norm_num [dielRay]

theorem diel_cos : min (dot (-(unit_vector dielRay.dir)) (⟨0, 0, 1⟩ : Vec3)) 1 = 4/5 := by
  rw [unit_dielRay]
  have hd : dot (-(⟨3/5, 0, -4/5⟩ : Vec3)) (⟨0, 0, 1⟩ : Vec3) = 4/5 := by
    norm_num [dot]
  rw [hd]
  exact min_eq_left (by norm_num)

theorem diel_sin : Real.sqrt (1 - (4/5 : ℝ) ^ 2) = 3/5 := by
  rw [show (1 - (4/5:ℝ) ^ 2) = (3/5) ^ 2 by norm_num,
    Real.sqrt_sq (by norm_num : (0:ℝ) ≤ 3/5)]

theorem diel_schlick : schlick (4/5) 1 = 1/3125 := by
  norm_num [schlick]

theorem diel_reflect : reflect (unit_vector dielRay.dir) (⟨0, 0, 1⟩ : Vec3) = ⟨3/5, 0, 4/5⟩ := by
  rw [unit_dielRay]
  apply Vec3.eq_of_comps <;> norm_num [reflect, dot]

/-- At `η = 1` with `cos θ = 4/5` and random draw `0`, the dielectric takes
the Schlick reflection branch and reflects instead of passing through. -/
theorem diel_scatter_zero :
    Dielectric.scatter ⟨1⟩ dielRay dielRec 0 =
      (true, ⟨1, 1, 1⟩, ⟨⟨0, 0, 0⟩, ⟨3/5, 0, 4/5⟩⟩) := by
  simp only [Dielectric.scatter, dielRec, eq_self_iff_true, if_true, one_div_one, one_mul]
  rw [diel_cos, diel_sin]
  rw [if_neg (by norm_num : ¬((1:ℝ) < 3/5)), diel_schlick,
    if_pos (by norm_num : (0:ℝ) < 1/3125), diel_reflect]

/-- C5 counterexample: for the dielectric with `refractive_index = 1`, the
incoming ray with direction `(3,0,-4)`, the front-facing hit record with
normal `(0,0,1)`, and the uniform draw `0`, the scattered direction is the
reflection `(3/5, 0, 4/5)`, not the normalized incoming direction
`(3/5, 0, -4/5)`: the claim that every draw refracts straight through fails. -/
theorem dielectric_eta_one_counterexample :
    ¬((Dielectric.scatter ⟨1⟩ dielRay dielRec 0).2.2.dir = unit_vector dielRay.dir ∧
      (Dielectric.scatter ⟨1⟩ dielRay dielRec 0).2.1 = ⟨1, 1, 1⟩) := by
  rw [diel_scatter_zero, unit_dielRay]
  rintro ⟨hdircon, -⟩
  have hz := congrArg Vec3.z hdircon
  dsimp only at hz
  norm_num at hz

/-- Witness for the amended C5: at the concrete ray, record, and draw `1/2`
(at least the Schlick reflectance `1/3125`), the scatter passes straight
through with white attenuation. -/
theorem dielectric_eta_one_refracts_witness :
    Dielectric.scatter ⟨1⟩ dielRay dielRec (1/2) =
      (true, ⟨1, 1, 1⟩, ⟨dielRec.p, unit_vector dielRay.dir⟩) := by
  apply dielectric_eta_one_refracts
  · norm_num [Vec3.length_sqrd, dielRay]
  · norm_num [Vec3.length_sqrd, dielRec]
  · rw [unit_dielRay]
    norm_num [dot, dielRec]
  · have hmin : min (dot (-(unit_vector dielRay.dir)) dielRec.normal) 1 = 4/5 := by
      rw [show dielRec.normal = (⟨0, 0, 1⟩ : Vec3) from rfl]
      exact diel_cos
    rw [hmin, diel_schlick]
    norm_num

end RayTracer
